import Mathlib

/-!
Verification of the PII anonymizer middleware core.

Python texts are modelled as `List Char`, machine floats that only carry
confidence scores in [0, 1] as `Rat`, and Python `int` as `Int`/`Nat`.
Python dicts (which preserve insertion order, overwrite in place on
re-assignment of an existing key, and delete single entries) are modelled
as association lists with the operations `dictGet`, `dictSet`, `dictDel`.
-/

set_option maxHeartbeats 1000000
set_option maxRecDepth 10000

/-! ### Python dict model -/

/-- Python `d[key]` read (equivalently `key in d` when testing `isSome`):
the value of the unique entry with this key, if present. -/
def dictGet {κ α : Type} [DecidableEq κ] (k : κ) : List (κ × α) → Option α
  | [] => none
  | p :: rest => if p.1 = k then some p.2 else dictGet k rest

/-- Python `d[key] = value`: overwrite in place if the key is present,
otherwise append a new entry at the end (insertion order preserved). -/
def dictSet {κ α : Type} [DecidableEq κ] (k : κ) (v : α) : List (κ × α) → List (κ × α)
  | [] => [(k, v)]
  | p :: rest => if p.1 = k then (k, v) :: rest else p :: dictSet k v rest

/-- Python `del d[key]`: remove the (unique) entry with this key. -/
def dictDel {κ α : Type} [DecidableEq κ] (k : κ) : List (κ × α) → List (κ × α)
  | [] => []
  | p :: rest => if p.1 = k then rest else p :: dictDel k rest

/-! ### SHA-256 (`hashlib.sha256`), over byte lists

`generate_entity_id` calls `hashlib.sha256(hash_input.encode()).hexdigest()[:8]`.
We embed SHA-256 itself: 32-bit words are `Nat` values reduced `% 2^32`.
The round constants are derived, as in the FIPS 180-4 definition, from the
fractional parts of the cube roots (resp. square roots) of the first
primes, via exact integer root extraction. -/

/-- 2^32, the word modulus. -/
def w32 : Nat := 4294967296

/-- Binary search for the integer cube root (fuel-driven; invariant
`lo^3 ≤ n < hi^3`). -/
def icbrtGo (n : Nat) : Nat → Nat → Nat → Nat
  | 0, lo, _ => lo
  | fuel + 1, lo, hi =>
    if hi ≤ lo + 1 then lo
    else
      let mid := (lo + hi) / 2
      if mid * mid * mid ≤ n then icbrtGo n fuel mid hi else icbrtGo n fuel lo mid

/-- Integer cube root, adequate for inputs below `2^120`. -/
def icbrt (n : Nat) : Nat := icbrtGo n 64 0 (2 ^ 40)

/-- First 32 bits of the fractional part of the square root of `p`. -/
def fracSqrt (p : Nat) : Nat := Nat.sqrt (p * 2 ^ 64) % w32

/-- First 32 bits of the fractional part of the cube root of `p`. -/
def fracCbrt (p : Nat) : Nat := icbrt (p * 2 ^ 96) % w32

/-- The first 64 primes, sources of the SHA-256 round constants. -/
def primes64 : List Nat :=
  [2, 3, 5, 7, 11, 13, 17, 19, 23, 29, 31, 37, 41, 43, 47, 53,
   59, 61, 67, 71, 73, 79, 83, 89, 97, 101, 103, 107, 109, 113, 127, 131,
   137, 139, 149, 151, 157, 163, 167, 173, 179, 181, 191, 193, 197, 199, 211, 223,
   227, 229, 233, 239, 241, 251, 257, 263, 269, 271, 277, 281, 283, 293, 307, 311]

/-- SHA-256 round constant table `K`. -/
def kTable : List Nat := primes64.map fracCbrt

/-- Right rotation of a 32-bit word. -/
def rotr32 (x n : Nat) : Nat := (x >>> n ||| x <<< (32 - n)) % w32

/-- Bitwise complement within 32 bits. -/
def notW (x : Nat) : Nat := x ^^^ (w32 - 1)

def bsig0 (x : Nat) : Nat := rotr32 x 2 ^^^ rotr32 x 13 ^^^ rotr32 x 22

def bsig1 (x : Nat) : Nat := rotr32 x 6 ^^^ rotr32 x 11 ^^^ rotr32 x 25

def ssig0 (x : Nat) : Nat := rotr32 x 7 ^^^ rotr32 x 18 ^^^ (x >>> 3)

def ssig1 (x : Nat) : Nat := rotr32 x 17 ^^^ rotr32 x 19 ^^^ (x >>> 10)

def chF (x y z : Nat) : Nat := (x &&& y) ^^^ (notW x &&& z)

def majF (x y z : Nat) : Nat := (x &&& y) ^^^ (x &&& z) ^^^ (y &&& z)

/-- The `n` bytes of `val`, big-endian. -/
def toBytesBE : Nat → Nat → List Nat
  | 0, _ => []
  | m + 1, val => toBytesBE m (val >>> 8) ++ [val &&& 255]

/-- SHA-256 padding: append `0x80`, zero bytes up to 56 mod 64, and the
original bit length as 8 big-endian bytes. -/
def padMessage (msg : List Nat) : List Nat :=
  let l := msg.length
  let zeros := (64 + 56 - ((l + 1) % 64)) % 64
  msg ++ [128] ++ List.replicate zeros 0 ++ toBytesBE 8 (l * 8)

/-- Split a byte list into 64-byte chunks (fuel-driven structural
recursion so that the kernel can evaluate it; `l.length` fuel suffices
since every step consumes at least one byte). -/
def toChunksGo : Nat → List Nat → List (List Nat)
  | 0, _ => []
  | fuel + 1, l => if l = [] then [] else l.take 64 :: toChunksGo fuel (l.drop 64)

/-- Split a byte list into 64-byte chunks. -/
def toChunks (l : List Nat) : List (List Nat) := toChunksGo l.length l

/-- Big-endian 32-bit words from bytes. -/
def toWords : List Nat → List Nat
  | b0 :: b1 :: b2 :: b3 :: rest => (((b0 * 256 + b1) * 256 + b2) * 256 + b3) :: toWords rest
  | _ => []

/-- Extend the 16-word block to the 64-word message schedule
(`steps` = 48 remaining extension steps). -/
def extendSchedule : Nat → List Nat → List Nat
  | 0, w => w
  | steps + 1, w =>
    let i := w.length
    let nw := (w.getD (i - 16) 0 + ssig0 (w.getD (i - 15) 0) +
               w.getD (i - 7) 0 + ssig1 (w.getD (i - 2) 0)) % w32
    extendSchedule steps (w ++ [nw])

/-- The eight 32-bit working variables of SHA-256. -/
structure Sha256State where
  a : Nat
  b : Nat
  c : Nat
  d : Nat
  e : Nat
  f : Nat
  g : Nat
  h : Nat

/-- Initial hash value: fractional parts of the square roots of the first
eight primes. -/
def initState : Sha256State :=
  ⟨fracSqrt 2, fracSqrt 3, fracSqrt 5, fracSqrt 7,
   fracSqrt 11, fracSqrt 13, fracSqrt 17, fracSqrt 19⟩

/-- One SHA-256 round; `kw` is the pair (round constant, schedule word). -/
def sha256Round (st : Sha256State) (kw : Nat × Nat) : Sha256State :=
  let t1 := (st.h + bsig1 st.e + chF st.e st.f st.g + kw.1 + kw.2) % w32
  let t2 := (bsig0 st.a + majF st.a st.b st.c) % w32
  ⟨(t1 + t2) % w32, st.a, st.b, st.c, (st.d + t1) % w32, st.e, st.f, st.g⟩

/-- Compress one 64-byte chunk into the running state. -/
def compressChunk (st : Sha256State) (chunk : List Nat) : Sha256State :=
  let wsch := extendSchedule 48 (toWords chunk)
  let fin := (kTable.zip wsch).foldl sha256Round st
  ⟨(st.a + fin.a) % w32, (st.b + fin.b) % w32, (st.c + fin.c) % w32,
   (st.d + fin.d) % w32, (st.e + fin.e) % w32, (st.f + fin.f) % w32,
   (st.g + fin.g) % w32, (st.h + fin.h) % w32⟩

/-- SHA-256 digest (32 bytes) of a byte list. -/
def sha256 (msg : List Nat) : List Nat :=
  let st := (toChunks (padMessage msg)).foldl compressChunk initState
  toBytesBE 4 st.a ++ toBytesBE 4 st.b ++ toBytesBE 4 st.c ++ toBytesBE 4 st.d ++
  toBytesBE 4 st.e ++ toBytesBE 4 st.f ++ toBytesBE 4 st.g ++ toBytesBE 4 st.h

/-- Lowercase hex digit. -/
def hexChar (n : Nat) : Char := if n < 10 then Char.ofNat (48 + n) else Char.ofNat (87 + n)

/-- Python `.hexdigest()`: lowercase hex of the 32 digest bytes. -/
def sha256hexdigest (msg : List Nat) : List Char :=
  (sha256 msg).foldr (fun b acc => hexChar (b / 16) :: hexChar (b % 16) :: acc) []

/-- Python `str.encode()` (UTF-8) for one character. -/
def utf8EncodeChar (c : Char) : List Nat :=
  let n := c.toNat
  if n < 128 then [n]
  else if n < 2048 then [192 + n / 64, 128 + n % 64]
  else if n < 65536 then [224 + n / 4096, 128 + n / 64 % 64, 128 + n % 64]
  else [240 + n / 262144, 128 + n / 4096 % 64, 128 + n / 64 % 64, 128 + n % 64]

/-- Python `str.encode()` (UTF-8). -/
def utf8Encode (s : List Char) : List Nat := (s.map utf8EncodeChar).flatten

/-- Embeds `FakeDataGenerator.generate_entity_id`:
`f"{entity_type}_{sha256(f"{entity_type}:{original_value}".encode()).hexdigest()[:8]}"`. -/
def generateEntityId (entityType originalValue : List Char) : List Char :=
  let hashInput := entityType ++ [':'] ++ originalValue
  let entityHash := (sha256hexdigest (utf8Encode hashInput)).take 8
  entityType ++ ['_'] ++ entityHash

/-! ### Core data model (`core.py`) -/

/-- The `EntityMatch` frozen dataclass: a detected PII span. Offsets are the
validated non-negative values (the raw constructor with `int` inputs is
`mkEntityMatch` below). The Python field `end` is `end_` here. -/
structure EntityMatch where
  entity_type : List Char
  start : Nat
  end_ : Nat
  text : List Char
  confidence : Rat
  deriving DecidableEq, Repr

/-- The `EntityMatch.__post_init__` validation, applied to raw constructor
arguments: `raise ValueError` becomes `Except.error`. -/
def mkEntityMatch (entityType : List Char) (start end_ : Int) (text : List Char)
    (confidence : Rat) : Except String EntityMatch :=
  if start < 0 ∨ end_ ≤ start then .error "Invalid entity position"
  else if ¬(0 ≤ confidence ∧ confidence ≤ 1) then .error "Confidence must be between 0 and 1"
  else .ok ⟨entityType, start.toNat, end_.toNat, text, confidence⟩

/-- The `AnonymizedEntity` frozen dataclass. -/
structure AnonymizedEntity where
  entity_id : List Char
  original_value : List Char
  entity_type : List Char
  fake_value : List Char
  confidence : Rat
  metadata : Option (List (List Char × List Char))
  deriving DecidableEq, Repr

/-- The Python exceptions that the modelled code can raise.
`processingError` is `exceptions.ProcessingError`; its `cause` models the
implicit `__context__` chain set by `raise` inside an `except` block. -/
inductive PyExc where
  | processingError (message : String) (cause : Option PyExc)
  | indexError (message : String)
  | keyError (message : String)
  | valueError (message : String)
  | analysisError (message : String)

/-- Python `str(e)` for the modelled exceptions. -/
def excMessage : PyExc → String
  | .processingError m _ => m
  | .indexError m => m
  | .keyError m => m
  | .valueError m => m
  | .analysisError m => m

/-- The `ProcessingResult` envelope, restricted to the fields with invariants
(`anonymized_data`, `entities_map`, `total_entities`; timing and free-form
metadata are measurement noise). `total_entities` defaults to 0 as in the
dataclass. -/
structure PResult where
  anonymized_data : List Char
  entities_map : List (List Char × AnonymizedEntity)
  total_entities : Nat
  deriving DecidableEq, Repr

/-! ### Entity resolver (`processing.py`) -/

/-- Ascending comparison by `start`, the key of
`sorted(entities, key=lambda x: x.start)`. -/
def startLE (a b : EntityMatch) : Prop := a.start ≤ b.start

instance : DecidableRel startLE := fun a b => inferInstanceAs (Decidable (a.start ≤ b.start))

instance : IsTotal EntityMatch startLE := ⟨fun a b => Nat.le_total a.start b.start⟩

instance : IsTrans EntityMatch startLE := ⟨fun _ _ _ => Nat.le_trans⟩

/-- Descending comparison by `start`, the key of
`sorted(entities, key=lambda x: x.start, reverse=True)`. -/
def startGE (a b : EntityMatch) : Prop := b.start ≤ a.start

instance : DecidableRel startGE := fun a b => inferInstanceAs (Decidable (b.start ≤ a.start))

/-- Embeds `_filter_entities`: `[e for e in entities if e.confidence >= threshold]`
with `threshold = config.confidence_threshold`. -/
def filterEntities (threshold : Rat) (entities : List EntityMatch) : List EntityMatch :=
  entities.filter (fun e => threshold ≤ e.confidence)

/-- The accumulation loop of `_merge_overlapping_entities`, recast as
recursion. The Python loop keeps a list `merged` whose last element is the
only one ever replaced (`merged[-1] = current`); once a further element is
appended, everything before it is final. `mergeKeep last l` is the final
output from the state where `last` is the current last accepted match and
`l` is the unprocessed remainder of the sorted input. -/
def mergeKeep (last : EntityMatch) : List EntityMatch → List EntityMatch
  | [] => [last]
  | current :: rest =>
    if current.start < last.end_ then
      if current.confidence > last.confidence then mergeKeep current rest
      else mergeKeep last rest
    else last :: mergeKeep current rest

/-- Embeds `_merge_overlapping_entities`. Python's `sorted` is a stable sort by
`x.start`; `List.insertionSort startLE` is extensionally the same stable
sort (it inserts each element before the first later-seen element whose
key is not smaller). -/
def mergeOverlappingEntities (entities : List EntityMatch) : List EntityMatch :=
  match List.insertionSort startLE entities with
  | [] => []
  | e :: rest => mergeKeep e rest

/-! ### Anonymization transformer (`processing.py::_anonymize_entities`)

The fake value for an entity is whatever `generate_fake_value` returned
for it (a Faker/`secrets` draw or a custom generator — an external,
nondeterministic collaborator); it enters the model as the function
`fakeOf` giving the value drawn for each entity. -/

/-- Embeds `_anonymize_entities`: descending-by-`start` stable sort, then for each
entity record an `AnonymizedEntity` under its deterministic id
(`entities_map[entity_id] = ...` is a dict write) and splice
`text[:start] + fake + text[end:]`. -/
def anonymizeEntities (text : List Char) (entities : List EntityMatch)
    (fakeOf : EntityMatch → List Char) :
    List Char × List (List Char × AnonymizedEntity) :=
  let sortedEntities := List.insertionSort startGE entities
  sortedEntities.foldl (fun acc e =>
    let entityId := generateEntityId e.entity_type e.text
    let fakeValue := fakeOf e
    let anonymizedEntity : AnonymizedEntity :=
      ⟨entityId, e.text, e.entity_type, fakeValue, e.confidence, none⟩
    (acc.1.take e.start ++ fakeValue ++ acc.1.drop e.end_,
     dictSet entityId anonymizedEntity acc.2)) (text, [])

/-! ### Python `str.replace` -/

/-- Python `str.replace` scan for a non-empty pattern `p :: ps`: left to right,
replacing each (non-overlapping) occurrence (fuel-driven structural
recursion so that the kernel can evaluate it; `s.length` fuel suffices
since every step consumes at least one character). -/
def replaceGo (p : Char) (ps repl : List Char) : Nat → List Char → List Char
  | _, [] => []
  | 0, s => s
  | fuel + 1, c :: rest =>
    if (p :: ps).isPrefixOf (c :: rest) then
      repl ++ replaceGo p ps repl fuel (rest.drop ps.length)
    else c :: replaceGo p ps repl fuel rest

/-- Python `str.replace` for a non-empty pattern `p :: ps`. -/
def replaceNE (p : Char) (ps repl : List Char) (s : List Char) : List Char :=
  replaceGo p ps repl s.length s

/-- Python `s.replace(pat, repl)` (an empty pattern matches at every
boundary, so `"ab".replace("", "X") = "XaXbX"`). -/
def pyReplace (s pat repl : List Char) : List Char :=
  match pat with
  | [] => repl ++ (s.map (fun c => c :: repl)).flatten
  | p :: ps => replaceNE p ps repl s

/-! ### Deanonymization (`deanonymization.py`) -/

/-- One entry of the `entities_map` argument of `deanonymize_text`:
either an `AnonymizedEntity` or a raw dict, whose `"fake_value"` /
`"original_value"` keys may be absent (then subscripting raises
`KeyError`). -/
inductive MapEntry where
  | entity (e : AnonymizedEntity)
  | dict (fakeValue : Option (List Char)) (originalValue : Option (List Char))
  deriving DecidableEq

/-- The body of the conversion loop: extract
`(entity["fake_value"], entity["original_value"])` or the dataclass
fields. -/
def entryPair : MapEntry → Except PyExc (List Char × List Char)
  | .entity e => .ok (e.fake_value, e.original_value)
  | .dict fv ov =>
    match fv with
    | none => .error (.keyError "fake_value")
    | some f =>
      match ov with
      | none => .error (.keyError "original_value")
      | some o => .ok (f, o)

/-- The `processed_entities` list: iterate the map in insertion order,
extracting the (fake, original) pair of each entry. -/
def collectPairs : List (List Char × MapEntry) → Except PyExc (List (List Char × List Char))
  | [] => .ok []
  | p :: rest => do
    let pr ← entryPair p.2
    let prs ← collectPairs rest
    .ok (pr :: prs)

/-- Descending comparison by fake-value length, the key of
`processed_entities.sort(key=lambda x: len(x["fake_value"]), reverse=True)`. -/
def fakeLenGE (a b : List Char × List Char) : Prop := b.1.length ≤ a.1.length

instance : DecidableRel fakeLenGE := fun a b => inferInstanceAs (Decidable (b.1.length ≤ a.1.length))

/-- The `try` body of `DeanonymizationService.deanonymize_text`: build the
`processed_entities` pairs (a lookup there may raise), sort them by fake
length descending, then run the replacement loop. -/
def deanonBody (anonymizedText : List Char) (entitiesMap : List (List Char × MapEntry)) :
    Except PyExc PResult :=
  match collectPairs entitiesMap with
  | .error e => .error e
  | .ok processed =>
    let sortedPairs := List.insertionSort fakeLenGE processed
    let restored := sortedPairs.foldl
      (fun buf pr => if pr.1 <:+: buf then pyReplace buf pr.1 pr.2 else buf)
      anonymizedText
    .ok ⟨restored, [], 0⟩

/-- Embeds `DeanonymizationService.deanonymize_text`: the body wrapped by
`except Exception as e: raise ProcessingError(f"Deanonymization failed: {str(e)}")`. -/
def deanonymizeText (anonymizedText : List Char) (entitiesMap : List (List Char × MapEntry)) :
    Except PyExc PResult :=
  match deanonBody anonymizedText entitiesMap with
  | .ok r => .ok r
  | .error e => .error (.processingError ("Deanonymization failed: " ++ excMessage e) (some e))

/-! ### The pipeline boundary (`processing.py::process_text_async`)

The external analyzer call and the fake-value provider are collaborators
outside `src/`: their outcomes enter as parameters (`detectRes` is what
`analyzer.analyze_async` returned or raised; `anonStage` is the anonymize
stage outcome, which can only fail if a fake generator raises). -/

/-- The `try` body of `process_text_async`: detect, filter, merge,
anonymize, assemble the result. -/
def pipelineBody (detectRes : Except PyExc (List EntityMatch)) (threshold : Rat)
    (anonStage : List EntityMatch → Except PyExc (List Char × List (List Char × AnonymizedEntity))) :
    Except PyExc PResult := do
  let detected ← detectRes
  let filtered := filterEntities threshold detected
  let merged := mergeOverlappingEntities filtered
  let anonymized ← anonStage merged
  .ok ⟨anonymized.1, anonymized.2, merged.length⟩

/-- Embeds `process_text_async`: the body wrapped by `except Exception as e:
raise ProcessingError(f"Text processing failed: {str(e)}")`. -/
def processTextAsync (detectRes : Except PyExc (List EntityMatch)) (threshold : Rat)
    (anonStage : List EntityMatch → Except PyExc (List Char × List (List Char × AnonymizedEntity))) :
    Except PyExc PResult :=
  match pipelineBody detectRes threshold anonStage with
  | .ok r => .ok r
  | .error e => .error (.processingError ("Text processing failed: " ++ excMessage e) (some e))

/-! ### LRU cache (`cache.py::ThreadSafeLRUCache`)

Every method body runs under `self._lock`, so each operation is one atomic
read-modify-write step on the state; the sequential model below is that
per-operation semantics. -/

/-- The state of a `ThreadSafeLRUCache`: the dict `_cache`, `maxsize`, and
the recency list `_access_order` (least recently used first). -/
structure ThreadSafeLRUCache (α : Type) where
  cache : List (String × α)
  maxsize : Nat
  accessOrder : List String

/-- Constructor `ThreadSafeLRUCache(maxsize)` (Python default 1000): empty dict, empty access order. -/
def ThreadSafeLRUCache.new (α : Type) (maxsize : Nat) : ThreadSafeLRUCache α :=
  ⟨[], maxsize, []⟩

/-- Method `get`: on a hit, move the key to the most-recently-used end and return
the value; on a miss return `None` (no state change). -/
def ThreadSafeLRUCache.get {α : Type} (c : ThreadSafeLRUCache α) (key : String) :
    Option α × ThreadSafeLRUCache α :=
  match dictGet key c.cache with
  | some v => (some v, ⟨c.cache, c.maxsize, c.accessOrder.erase key ++ [key]⟩)
  | none => (none, c)

/-- Method `set`: overwrite an existing key (promoting it), or — at capacity —
evict `self._access_order.pop(0)` first; `pop(0)` on an empty list raises
`IndexError`. -/
def ThreadSafeLRUCache.set {α : Type} (c : ThreadSafeLRUCache α) (key : String) (value : α) :
    Except PyExc (ThreadSafeLRUCache α) :=
  if (dictGet key c.cache).isSome then
    .ok ⟨dictSet key value c.cache, c.maxsize, c.accessOrder.erase key ++ [key]⟩
  else if c.maxsize ≤ c.cache.length then
    match c.accessOrder with
    | [] => .error (.indexError "pop from empty list")
    | oldest :: restOrder =>
      .ok ⟨dictSet key value (dictDel oldest c.cache), c.maxsize, restOrder ++ [key]⟩
  else
    .ok ⟨dictSet key value c.cache, c.maxsize, c.accessOrder ++ [key]⟩

/-- The reachable-state invariant of the cache: the access-order list is a
permutation of the dict's keys, and the keys are distinct. -/
def LRUInv {α : Type} (c : ThreadSafeLRUCache α) : Prop :=
  (c.cache.map Prod.fst).Perm c.accessOrder ∧ (c.cache.map Prod.fst).Nodup

/-! ### Specification-side definitions: occurrences, span chains, renders -/

/-- Proposition that `pat` occurs in `s` at index `i`. -/
def occursAt (pat s : List Char) (i : Nat) : Prop := pat <+: s.drop i

instance : ∀ (pat s : List Char) (i : Nat), Decidable (occursAt pat s i) :=
  fun pat s i => inferInstanceAs (Decidable (pat <+: s.drop i))

/-- All indices at which `pat` occurs in `s` (complete for non-empty `pat`). -/
def occPositions (pat s : List Char) : List Nat :=
  (List.range (s.length + 1)).filter (fun i => pat.isPrefixOf (s.drop i))

/-- Number of occurrences of `pat` in `s`. -/
def countOcc (pat s : List Char) : Nat := (occPositions pat s).length

/-- Predicate `chainFrom len pos l`: from position `pos`, the entities of `l` appear
in ascending order, each with `start < end_`, non-overlapping, and ending
by `len`. This is the shape of a resolved entity sequence for a text of
length `len`. -/
def chainFrom (len : Nat) : Nat → List EntityMatch → Prop
  | _, [] => True
  | pos, e :: rest => pos ≤ e.start ∧ e.start < e.end_ ∧ e.end_ ≤ len ∧ chainFrom len e.end_ rest

instance chainFromDec (len : Nat) : (pos : Nat) → (l : List EntityMatch) →
    Decidable (chainFrom len pos l)
  | _, [] => .isTrue trivial
  | pos, e :: rest =>
    have : Decidable (chainFrom len e.end_ rest) := chainFromDec len e.end_ rest
    inferInstanceAs (Decidable (_ ∧ _ ∧ _ ∧ _))

/-! ### Rendering an entity-substituted text

`renderAnon g text pos l` is the text from position `pos` on, with every
span of `l` replaced by `g`'s choice for it; this is the specification
shape against which `_anonymize_entities` is proved, and the state space
of the deanonymization argument (`g` moves from fake values back to
original values). -/

def renderAnon (g : EntityMatch → List Char) (text : List Char) :
    Nat → List EntityMatch → List Char
  | pos, [] => text.drop pos
  | pos, e :: rest =>
    (text.drop pos).take (e.start - pos) ++ g e ++ renderAnon g text e.end_ rest

/-- As `renderAnon` but without the trailing untouched segment. -/
def renderPieces (g : EntityMatch → List Char) (text : List Char) :
    Nat → List EntityMatch → List Char
  | _, [] => []
  | pos, e :: rest =>
    (text.drop pos).take (e.start - pos) ++ g e ++ renderPieces g text e.end_ rest

/-- The position after the last span of `l` (starting from `pos`). -/
def endPos : Nat → List EntityMatch → Nat
  | pos, [] => pos
  | _, e :: rest => endPos e.end_ rest

/-- The replacement step on the text buffer:
`text[:start] + fake + text[end:]`. -/
def spliceStep (fakeOf : EntityMatch → List Char) (t : List Char) (e : EntityMatch) :
    List Char :=
  t.take e.start ++ fakeOf e ++ t.drop e.end_

/-- The per-entity map record written by `_anonymize_entities`. -/
def anonEntry (fakeOf : EntityMatch → List Char) (e : EntityMatch) :
    List Char × AnonymizedEntity :=
  (generateEntityId e.entity_type e.text,
   ⟨generateEntityId e.entity_type e.text, e.text, e.entity_type, fakeOf e, e.confidence, none⟩)

/-- The entity-indexed form of the deanonymization replacement loop body. -/
def restoreStep (fakeOf : EntityMatch → List Char) (buf : List Char) (j : EntityMatch) :
    List Char :=
  if fakeOf j <:+: buf then pyReplace buf (fakeOf j) j.text else buf

/-- First entity of the C1 counterexample: `PERSON` at `[0, 2)` in `"ab ab"`. -/
def cexE1 : EntityMatch := ⟨"PERSON".data, 0, 2, "ab".data, 1⟩

/-- Second entity of the C1 counterexample: `PERSON` at `[3, 5)` in `"ab ab"`,
with the same `(entity_type, text)` pair as `cexE1`. -/
def cexE2 : EntityMatch := ⟨"PERSON".data, 3, 5, "ab".data, 1⟩

/-- Fake values of the C1 counterexample: pairwise distinct, no textual
collision with anything else. -/
def cexFake : EntityMatch → List Char := fun e => if e.start = 0 then "X".data else "Y".data

/-! ### Dict lemmas -/

/-- Bridge for Python substring checks: Boolean prefix test versus the
prefix relation (restating the standard library fact with both sides
spelled out). -/
theorem isPrefixOf_eq_true_iff {l1 l2 : List Char} : l1.isPrefixOf l2 = true ↔ l1 <+: l2 :=
  List.isPrefixOf_iff_prefix

theorem dictGet_dictSet_self {κ α : Type} [DecidableEq κ] (k : κ) (v : α) :
    ∀ m : List (κ × α), dictGet k (dictSet k v m) = some v
  | [] => by simp [dictGet, dictSet]
  | p :: rest => by
    by_cases h : p.1 = k
    · simp [dictGet, dictSet, h]
    · simp [dictGet, dictSet, h, dictGet_dictSet_self k v rest]

theorem dictGet_dictSet_ne {κ α : Type} [DecidableEq κ] {a k : κ} (v : α) (hne : a ≠ k) :
    ∀ m : List (κ × α), dictGet a (dictSet k v m) = dictGet a m
  | [] => by
    have hka : ¬ k = a := fun hh => hne hh.symm
    simp [dictGet, dictSet, hka]
  | p :: rest => by
    have hka : ¬ k = a := fun hh => hne hh.symm
    by_cases h : p.1 = k
    · simp [dictGet, dictSet, h, hka]
    · simp only [dictSet, if_neg h, dictGet]
      by_cases h2 : p.1 = a
      · simp [h2]
      · simp [h2, dictGet_dictSet_ne v hne rest]

theorem dictGet_eq_none_iff {κ α : Type} [DecidableEq κ] (k : κ) :
    ∀ m : List (κ × α), dictGet k m = none ↔ k ∉ m.map Prod.fst
  | [] => by simp [dictGet]
  | p :: rest => by
    by_cases h : p.1 = k
    · simp [dictGet, h]
    · have hkp : ¬ k = p.1 := fun hh => h hh.symm
      simp [dictGet, h, dictGet_eq_none_iff k rest, hkp]

theorem dictSet_of_absent {κ α : Type} [DecidableEq κ] {k : κ} (v : α) :
    ∀ m : List (κ × α), dictGet k m = none → dictSet k v m = m ++ [(k, v)]
  | [], _ => rfl
  | p :: rest, h => by
    have hp : ¬ p.1 = k := by
      intro hh
      simp [dictGet, hh] at h
    simp only [dictGet, if_neg hp] at h
    simp [dictSet, hp, dictSet_of_absent v rest h]

theorem map_fst_dictSet_of_mem {κ α : Type} [DecidableEq κ] {k : κ} (v : α) :
    ∀ m : List (κ × α), k ∈ m.map Prod.fst → (dictSet k v m).map Prod.fst = m.map Prod.fst
  | [], h => by simp at h
  | p :: rest, h => by
    by_cases hp : p.1 = k
    · simp [dictSet, hp]
    · have : k ∈ rest.map Prod.fst := by
        rcases List.mem_map.1 h with ⟨q, hq, hqk⟩
        rcases List.mem_cons.1 hq with rfl | hq2
        · exact absurd hqk hp
        · exact List.mem_map.2 ⟨q, hq2, hqk⟩
      simp [dictSet, hp, map_fst_dictSet_of_mem v rest this]

theorem length_dictSet_of_mem {κ α : Type} [DecidableEq κ] {k : κ} (v : α)
    (m : List (κ × α)) (h : k ∈ m.map Prod.fst) : (dictSet k v m).length = m.length := by
  have := congrArg List.length (map_fst_dictSet_of_mem v m h)
  simpa using this

theorem map_fst_dictDel {κ α : Type} [DecidableEq κ] (k : κ) :
    ∀ m : List (κ × α), (dictDel k m).map Prod.fst = (m.map Prod.fst).erase k
  | [] => by simp [dictDel]
  | p :: rest => by
    by_cases hp : p.1 = k
    · simp [dictDel, hp, List.erase_cons]
    · simp [dictDel, hp, List.erase_cons, map_fst_dictDel k rest]

theorem dictGet_dictDel_self {κ α : Type} [DecidableEq κ] (k : κ) :
    ∀ m : List (κ × α), (m.map Prod.fst).Nodup → dictGet k (dictDel k m) = none
  | [], _ => rfl
  | p :: rest, h => by
    by_cases hp : p.1 = k
    · have : p.1 ∉ rest.map Prod.fst := (List.nodup_cons.1 (by simpa using h)).1
      rw [dictDel, if_pos hp, dictGet_eq_none_iff]
      exact hp ▸ this
    · rw [dictDel, if_neg hp, dictGet, if_neg hp]
      exact dictGet_dictDel_self k rest (List.nodup_cons.1 (by simpa using h)).2

theorem dictGet_append_of_none {κ α : Type} [DecidableEq κ] (k : κ) :
    ∀ (m m' : List (κ × α)), dictGet k m = none → dictGet k (m ++ m') = dictGet k m'
  | [], m', _ => rfl
  | p :: rest, m', h => by
    have hp : ¬ p.1 = k := by
      intro hh
      simp [dictGet, hh] at h
    simp only [dictGet, if_neg hp] at h
    simp [dictGet, hp, dictGet_append_of_none k rest m' h]

/-! ### Occurrences of a pattern in a text, and `str.replace` lemmas -/

theorem occursAt_mem_occPositions {pat s : List Char} {i : Nat} (hne : pat ≠ [])
    (h : occursAt pat s i) : i ∈ occPositions pat s := by
  have hlen : pat.length ≤ (s.drop i).length := h.length_le
  have hp : 1 ≤ pat.length := by
    cases pat with
    | nil => exact absurd rfl hne
    | cons a l => simp
  have hi : i < s.length := by
    simp only [List.length_drop] at hlen
    omega
  refine List.mem_filter.2 ⟨List.mem_range.2 (by omega), ?_⟩
  exact isPrefixOf_eq_true_iff.2 h

theorem mem_occPositions_occursAt {pat s : List Char} {i : Nat}
    (h : i ∈ occPositions pat s) : occursAt pat s i :=
  isPrefixOf_eq_true_iff.1 (List.mem_filter.1 h).2

theorem countOcc_one_unique {pat s : List Char} {k : Nat} (hne : pat ≠ [])
    (hc : countOcc pat s = 1) (hk : occursAt pat s k) :
    ∀ i, occursAt pat s i → i = k := by
  intro i hi
  rcases List.length_eq_one.1 hc with ⟨x, hx⟩
  have h1 : i ∈ occPositions pat s := occursAt_mem_occPositions hne hi
  have h2 : k ∈ occPositions pat s := occursAt_mem_occPositions hne hk
  rw [hx, List.mem_singleton] at h1 h2
  rw [h1, h2]

theorem occursAt_shift {pat l2 : List Char} {i : Nat} (l1 : List Char)
    (h : occursAt pat l2 i) : occursAt pat (l1 ++ l2) (l1.length + i) := by
  unfold occursAt at h ⊢
  rwa [List.drop_append]

theorem occursAt_cons_succ {pat s : List Char} {c : Char} {i : Nat} :
    occursAt pat (c :: s) (i + 1) ↔ occursAt pat s i := Iff.rfl

theorem occursAt_site (u pat v : List Char) : occursAt pat (u ++ pat ++ v) u.length := by
  unfold occursAt
  rw [List.append_assoc, List.drop_left]
  exact List.prefix_append pat v

theorem replaceGo_of_not_occurs (p : Char) (ps repl : List Char) :
    ∀ (fuel : Nat) (s : List Char), s.length ≤ fuel →
      (∀ i, ¬ occursAt (p :: ps) s i) → replaceGo p ps repl fuel s = s
  | fuel, [], _, _ => by cases fuel <;> rfl
  | 0, c :: rest, hf, _ => by
    simp only [List.length_cons] at hf
    omega
  | fuel + 1, c :: rest, hf, h => by
    rw [replaceGo]
    have hnp : ¬ (p :: ps).isPrefixOf (c :: rest) = true := by
      intro hp
      exact h 0 (isPrefixOf_eq_true_iff.1 hp)
    rw [if_neg hnp]
    have hfr : rest.length ≤ fuel := by
      simp only [List.length_cons] at hf
      omega
    have hno : ∀ i, ¬ occursAt (p :: ps) rest i :=
      fun i hi => h (i + 1) (occursAt_cons_succ.2 hi)
    rw [replaceGo_of_not_occurs p ps repl fuel rest hfr hno]

theorem replaceGo_unique (p : Char) (ps repl : List Char) :
    ∀ (u : List Char) (fuel : Nat) (v : List Char),
      (u ++ (p :: ps) ++ v).length ≤ fuel →
      (∀ i, occursAt (p :: ps) (u ++ (p :: ps) ++ v) i → i = u.length) →
      replaceGo p ps repl fuel (u ++ (p :: ps) ++ v) = u ++ repl ++ v := by
  intro u
  induction u with
  | nil =>
    intro fuel v hf h
    have hshape : ([] : List Char) ++ (p :: ps) ++ v = p :: (ps ++ v) := by simp
    rw [hshape] at hf ⊢
    cases fuel with
    | zero =>
      exact absurd hf (by simp only [List.length_cons]; omega)
    | succ fuel =>
      rw [replaceGo]
      have hpre : (p :: ps).isPrefixOf (p :: (ps ++ v)) :=
        isPrefixOf_eq_true_iff.2 ⟨v, by simp⟩
      rw [if_pos hpre]
      have hdrop : (ps ++ v).drop ps.length = v := List.drop_left ps v
      rw [hdrop]
      have hnov : ∀ i, ¬ occursAt (p :: ps) v i := by
        intro i hi
        have hs : occursAt (p :: ps) (([] : List Char) ++ (p :: ps) ++ v)
            ((p :: ps).length + i) := occursAt_shift (p :: ps) hi
        have h0 := h _ hs
        simp at h0
      have hvf : v.length ≤ fuel := by
        simp only [List.length_cons, List.length_append] at hf
        omega
      rw [replaceGo_of_not_occurs p ps repl fuel v hvf hnov]
      simp
  | cons c u' ih =>
    intro fuel v hf h
    have hshape : (c :: u') ++ (p :: ps) ++ v = c :: (u' ++ (p :: ps) ++ v) := by simp
    rw [hshape] at hf ⊢
    cases fuel with
    | zero =>
      exact absurd hf (by simp only [List.length_cons]; omega)
    | succ fuel =>
      rw [replaceGo]
      have hnp : ¬ (p :: ps).isPrefixOf (c :: (u' ++ (p :: ps) ++ v)) = true := by
        intro hp
        have h00 : occursAt (p :: ps) ((c :: u') ++ (p :: ps) ++ v) 0 := by
          rw [hshape]
          exact isPrefixOf_eq_true_iff.1 hp
        have h0 := h 0 h00
        simp at h0
      rw [if_neg hnp]
      have hsh : ∀ i, occursAt (p :: ps) (u' ++ (p :: ps) ++ v) i → i = u'.length := by
        intro i hi
        have hcc : occursAt (p :: ps) ((c :: u') ++ (p :: ps) ++ v) (i + 1) := by
          rw [hshape]
          exact occursAt_cons_succ.2 hi
        have h1 := h _ hcc
        simpa using h1
      have hf' : (u' ++ (p :: ps) ++ v).length ≤ fuel := by
        simp only [List.length_cons] at hf
        omega
      rw [ih fuel v hf' hsh]
      simp

theorem replaceNE_unique (p : Char) (ps repl : List Char) (u v : List Char)
    (h : ∀ i, occursAt (p :: ps) (u ++ (p :: ps) ++ v) i → i = u.length) :
    replaceNE p ps repl (u ++ (p :: ps) ++ v) = u ++ repl ++ v :=
  replaceGo_unique p ps repl u (u ++ (p :: ps) ++ v).length v (Nat.le_refl _) h

/-! ### Merge lemmas -/

theorem mergeKeep_start_le :
    ∀ (l : List EntityMatch) (last : EntityMatch),
      l.Pairwise startLE → (∀ x ∈ l, last.start ≤ x.start) →
      ∀ y ∈ mergeKeep last l, last.start ≤ y.start
  | [], last, _, _, y, hy => by
    simp [mergeKeep] at hy
    exact hy ▸ Nat.le_refl _
  | current :: rest, last, hp, hall, y, hy => by
    have hrest := (List.pairwise_cons.1 hp).2
    have hcur := (List.pairwise_cons.1 hp).1
    have hlc : last.start ≤ current.start := hall current (List.mem_cons_self _ _)
    rw [mergeKeep] at hy
    by_cases h1 : current.start < last.end_
    · rw [if_pos h1] at hy
      by_cases h2 : current.confidence > last.confidence
      · rw [if_pos h2] at hy
        exact Nat.le_trans hlc (mergeKeep_start_le rest current hrest hcur y hy)
      · rw [if_neg h2] at hy
        exact mergeKeep_start_le rest last hrest
          (fun x hx => Nat.le_trans hlc (hcur x hx)) y hy
    · rw [if_neg h1] at hy
      rcases List.mem_cons.1 hy with rfl | hy2
      · exact Nat.le_refl _
      · exact Nat.le_trans hlc (mergeKeep_start_le rest current hrest hcur y hy2)

theorem mergeKeep_chain' (R : EntityMatch → EntityMatch → Prop)
    (hstep : ∀ a b, a.end_ ≤ b.start → a.start ≤ b.start → R a b) :
    ∀ (l : List EntityMatch) (last : EntityMatch),
      l.Pairwise startLE → (∀ x ∈ l, last.start ≤ x.start) →
      List.Chain' R (mergeKeep last l)
  | [], last, _, _ => by
    rw [mergeKeep]
    exact List.chain'_singleton last
  | current :: rest, last, hp, hall => by
    have hrest := (List.pairwise_cons.1 hp).2
    have hcur := (List.pairwise_cons.1 hp).1
    have hlc : last.start ≤ current.start := hall current (List.mem_cons_self _ _)
    rw [mergeKeep]
    by_cases h1 : current.start < last.end_
    · rw [if_pos h1]
      by_cases h2 : current.confidence > last.confidence
      · rw [if_pos h2]
        exact mergeKeep_chain' R hstep rest current hrest hcur
      · rw [if_neg h2]
        exact mergeKeep_chain' R hstep rest last hrest
          (fun x hx => Nat.le_trans hlc (hcur x hx))
    · rw [if_neg h1]
      refine List.chain'_cons'.2 ⟨?_, mergeKeep_chain' R hstep rest current hrest hcur⟩
      intro y hy
      have hmem : y ∈ mergeKeep current rest := List.mem_of_mem_head? hy
      have hys : current.start ≤ y.start := mergeKeep_start_le rest current hrest hcur y hmem
      exact hstep last y (Nat.le_trans (Nat.le_of_not_lt h1) hys) (Nat.le_trans hlc hys)

/-! ### Sorting helpers -/

theorem orderedInsert_of_forall_not {α : Type} (r : α → α → Prop) [DecidableRel r] (a : α) :
    ∀ l : List α, (∀ b ∈ l, ¬ r a b) → List.orderedInsert r a l = l ++ [a]
  | [], _ => rfl
  | b :: l, h => by
    rw [List.orderedInsert, if_neg (h b (List.mem_cons_self _ _)),
      orderedInsert_of_forall_not r a l (fun x hx => h x (List.mem_cons_of_mem _ hx))]
    rfl

theorem insertionSort_startGE_of_lt_sorted :
    ∀ l : List EntityMatch, l.Pairwise (fun a b => a.start < b.start) →
      List.insertionSort startGE l = l.reverse
  | [], _ => rfl
  | a :: l, hp => by
    have hl := (List.pairwise_cons.1 hp).2
    have ha := (List.pairwise_cons.1 hp).1
    rw [List.insertionSort, insertionSort_startGE_of_lt_sorted l hl]
    rw [orderedInsert_of_forall_not startGE a l.reverse ?_, List.reverse_cons]
    intro b hb
    have : a.start < b.start := ha b (List.mem_reverse.1 hb)
    exact fun hge => Nat.not_le_of_lt this hge

theorem insertionSort_startLE_pair (e1 e2 : EntityMatch) (h : e1.start ≤ e2.start) :
    List.insertionSort startLE [e1, e2] = [e1, e2] := by
  show List.orderedInsert startLE e1 (List.orderedInsert startLE e2 []) = [e1, e2]
  rw [List.orderedInsert_nil, List.orderedInsert, if_pos (show startLE e1 e2 from h)]

/-! ### Span chains: sorted, valid, in-bounds, pairwise non-overlapping -/

theorem chainFrom_weaken {len p : Nat} {l : List EntityMatch} (h : chainFrom len p l)
    {q : Nat} (hq : q ≤ p) : chainFrom len q l := by
  cases l with
  | nil => trivial
  | cons e rest => exact ⟨Nat.le_trans hq h.1, h.2⟩

theorem chainFrom_mem {len : Nat} :
    ∀ {p : Nat} {l : List EntityMatch}, chainFrom len p l →
      ∀ e ∈ l, p ≤ e.start ∧ e.start < e.end_ ∧ e.end_ ≤ len
  | _, [], _, e, he => absurd he (List.not_mem_nil e)
  | p, f :: rest, h, e, he => by
    rcases List.mem_cons.1 he with rfl | he2
    · exact ⟨h.1, h.2.1, h.2.2.1⟩
    · have := chainFrom_mem h.2.2.2 e he2
      exact ⟨Nat.le_trans h.1 (Nat.le_trans (Nat.le_of_lt h.2.1) this.1), this.2⟩

theorem chainFrom_pairwise_lt {len : Nat} :
    ∀ {p : Nat} {l : List EntityMatch}, chainFrom len p l →
      l.Pairwise (fun a b => a.start < b.start)
  | _, [], _ => List.Pairwise.nil
  | p, f :: rest, h => by
    refine List.pairwise_cons.2 ⟨?_, chainFrom_pairwise_lt h.2.2.2⟩
    intro b hb
    have := chainFrom_mem h.2.2.2 b hb
    exact Nat.lt_of_lt_of_le h.2.1 this.1

theorem chainFrom_nodup {len p : Nat} {l : List EntityMatch} (h : chainFrom len p l) :
    l.Nodup :=
  (chainFrom_pairwise_lt h).imp (fun hab => by
    intro hEq
    rw [hEq] at hab
    exact Nat.lt_irrefl _ hab)

theorem renderAnon_eq_pieces (g : EntityMatch → List Char) (text : List Char) :
    ∀ (l : List EntityMatch) (pos : Nat),
      renderAnon g text pos l = renderPieces g text pos l ++ text.drop (endPos pos l)
  | [], pos => by simp [renderAnon, renderPieces, endPos]
  | e :: rest, pos => by
    rw [renderAnon, renderPieces, endPos, renderAnon_eq_pieces g text rest e.end_]
    simp [List.append_assoc]

theorem renderPieces_append (g : EntityMatch → List Char) (text : List Char) :
    ∀ (l1 l2 : List EntityMatch) (pos : Nat),
      renderPieces g text pos (l1 ++ l2)
        = renderPieces g text pos l1 ++ renderPieces g text (endPos pos l1) l2
  | [], l2, pos => by simp [renderPieces, endPos]
  | e :: rest, l2, pos => by
    rw [List.cons_append, renderPieces, renderPieces, endPos,
      renderPieces_append g text rest l2 e.end_]
    simp [List.append_assoc]

theorem endPos_append :
    ∀ (l1 l2 : List EntityMatch) (pos : Nat),
      endPos pos (l1 ++ l2) = endPos (endPos pos l1) l2
  | [], l2, pos => rfl
  | e :: rest, l2, pos => by
    rw [List.cons_append, endPos, endPos, endPos_append rest l2 e.end_]

theorem renderAnon_split (g : EntityMatch → List Char) (text : List Char)
    (l1 l2 : List EntityMatch) (pos : Nat) :
    renderAnon g text pos (l1 ++ l2)
      = renderPieces g text pos l1 ++ renderAnon g text (endPos pos l1) l2 := by
  rw [renderAnon_eq_pieces, renderPieces_append, endPos_append,
    renderAnon_eq_pieces g text l2 (endPos pos l1)]
  simp [List.append_assoc]

theorem renderAnon_congr {g g' : EntityMatch → List Char} (text : List Char) :
    ∀ (l : List EntityMatch) (pos : Nat), (∀ e ∈ l, g e = g' e) →
      renderAnon g text pos l = renderAnon g' text pos l
  | [], pos, _ => rfl
  | e :: rest, pos, h => by
    rw [renderAnon, renderAnon, h e (List.mem_cons_self _ _),
      renderAnon_congr text rest e.end_ (fun x hx => h x (List.mem_cons_of_mem _ hx))]

theorem renderPieces_congr {g g' : EntityMatch → List Char} (text : List Char) :
    ∀ (l : List EntityMatch) (pos : Nat), (∀ e ∈ l, g e = g' e) →
      renderPieces g text pos l = renderPieces g' text pos l
  | [], pos, _ => rfl
  | e :: rest, pos, h => by
    rw [renderPieces, renderPieces, h e (List.mem_cons_self _ _),
      renderPieces_congr text rest e.end_ (fun x hx => h x (List.mem_cons_of_mem _ hx))]

theorem splice_take_drop {α : Type} (d : List α) (a b : Nat) :
    d.take a ++ ((d.drop a).take b ++ (d.drop a).drop b) = d := by
  rw [List.take_append_drop, List.take_append_drop]

theorem renderAnon_orig (text : List Char) (g : EntityMatch → List Char) :
    ∀ (l : List EntityMatch) (pos : Nat),
      (∀ e ∈ l, g e = (text.drop e.start).take (e.end_ - e.start)) →
      chainFrom text.length pos l →
      renderAnon g text pos l = text.drop pos
  | [], pos, _, _ => rfl
  | e :: rest, pos, hg, hc => by
    rw [renderAnon, hg e (List.mem_cons_self _ _),
      renderAnon_orig text g rest e.end_
        (fun x hx => hg x (List.mem_cons_of_mem _ hx)) hc.2.2.2]
    have hpos : pos ≤ e.start := hc.1
    have hse : e.start < e.end_ := hc.2.1
    have h1 : text.drop e.start = (text.drop pos).drop (e.start - pos) := by
      rw [List.drop_drop]
      congr 1
      omega
    have h2 : text.drop e.end_ = ((text.drop pos).drop (e.start - pos)).drop (e.end_ - e.start) := by
      rw [List.drop_drop, List.drop_drop]
      congr 1
      omega
    rw [h1, h2, List.append_assoc]
    exact splice_take_drop (text.drop pos) (e.start - pos) (e.end_ - e.start)

theorem renderAnon_take (g : EntityMatch → List Char) (text : List Char)
    (l : List EntityMatch) (k : Nat) (hk : k ≤ text.length)
    (hc : chainFrom text.length k l) :
    (renderAnon g text 0 l).take k = text.take k := by
  cases l with
  | nil =>
    rw [renderAnon, List.drop_zero]
  | cons e rest =>
    have hke : k ≤ e.start := hc.1
    rw [renderAnon, List.drop_zero, Nat.sub_zero, List.append_assoc,
      List.take_append_eq_append_take]
    have hlen : (text.take e.start).length = min e.start text.length := List.length_take _ _
    have h0 : k - (text.take e.start).length = 0 := by
      rw [hlen]
      have : e.start < e.end_ := hc.2.1
      have : e.end_ ≤ text.length := hc.2.2.1
      omega
    rw [h0, List.take_zero, List.append_nil, List.take_take]
    congr 1
    omega

theorem renderAnon_drop (g : EntityMatch → List Char) (text : List Char)
    (l : List EntityMatch) (p : Nat) (hp : p ≤ text.length)
    (hc : chainFrom text.length p l) :
    (renderAnon g text 0 l).drop p = renderAnon g text p l := by
  cases l with
  | nil =>
    rw [renderAnon, renderAnon, List.drop_zero]
  | cons e rest =>
    have hpe : p ≤ e.start := hc.1
    rw [renderAnon, renderAnon, List.drop_zero, Nat.sub_zero, List.append_assoc,
      List.drop_append_eq_append_drop]
    have hlen : (text.take e.start).length = min e.start text.length := List.length_take _ _
    have h0 : p - (text.take e.start).length = 0 := by
      rw [hlen]
      omega
    rw [h0, List.drop_zero, List.drop_take]
    exact (List.append_assoc _ _ _).symm

theorem foldr_splice_eq_render (fakeOf : EntityMatch → List Char) (text : List Char) :
    ∀ l : List EntityMatch, chainFrom text.length 0 l →
      l.foldr (fun e t => spliceStep fakeOf t e) text = renderAnon fakeOf text 0 l
  | [], _ => by rw [List.foldr_nil, renderAnon, List.drop_zero]
  | e :: rest, hc => by
    have hrest0 : chainFrom text.length 0 rest := chainFrom_weaken hc.2.2.2 (Nat.zero_le _)
    have hresteq := foldr_splice_eq_render fakeOf text rest hrest0
    rw [List.foldr_cons, hresteq]
    show (renderAnon fakeOf text 0 rest).take e.start ++ fakeOf e ++
        (renderAnon fakeOf text 0 rest).drop e.end_ = renderAnon fakeOf text 0 (e :: rest)
    have htake : (renderAnon fakeOf text 0 rest).take e.start = text.take e.start := by
      refine renderAnon_take fakeOf text rest e.start ?_ ?_
      · exact Nat.le_trans (Nat.le_of_lt hc.2.1) hc.2.2.1
      · exact chainFrom_weaken hc.2.2.2 (Nat.le_of_lt hc.2.1)
    have hdrop : (renderAnon fakeOf text 0 rest).drop e.end_ =
        renderAnon fakeOf text e.end_ rest := by
      exact renderAnon_drop fakeOf text rest e.end_ hc.2.2.1 hc.2.2.2
    rw [htake, hdrop, renderAnon, List.drop_zero, Nat.sub_zero]

theorem foldl_pair_split {α β γ : Type} (f : α → γ → α) (h : β → γ → β) :
    ∀ (l : List γ) (a : α) (b : β),
      l.foldl (fun acc x => (f acc.1 x, h acc.2 x)) (a, b) = (l.foldl f a, l.foldl h b)
  | [], a, b => rfl
  | x :: l, a, b => by
    rw [List.foldl_cons, List.foldl_cons, List.foldl_cons]
    exact foldl_pair_split f h l (f a x) (h b x)

theorem anonymizeEntities_eq (text : List Char) (entities : List EntityMatch)
    (fakeOf : EntityMatch → List Char) :
    anonymizeEntities text entities fakeOf =
      ((List.insertionSort startGE entities).foldl (spliceStep fakeOf) text,
       (List.insertionSort startGE entities).foldl
         (fun m e => dictSet (anonEntry fakeOf e).1 (anonEntry fakeOf e).2 m) []) := by
  show (List.insertionSort startGE entities).foldl _ (text, []) = _
  exact foldl_pair_split (spliceStep fakeOf)
    (fun m e => dictSet (anonEntry fakeOf e).1 (anonEntry fakeOf e).2 m)
    (List.insertionSort startGE entities) text []

theorem foldl_dictSet_append {κ α γ : Type} [DecidableEq κ] (key : γ → κ) (val : γ → α) :
    ∀ (l : List γ) (m0 : List (κ × α)),
      (∀ x ∈ l, dictGet (key x) m0 = none) → (l.map key).Nodup →
      l.foldl (fun m x => dictSet (key x) (val x) m) m0 = m0 ++ l.map (fun x => (key x, val x))
  | [], m0, _, _ => by simp
  | x :: l, m0, habs, hnd => by
    rw [List.foldl_cons, dictSet_of_absent (val x) m0 (habs x (List.mem_cons_self _ _))]
    have hnd2 : (l.map key).Nodup := (List.nodup_cons.1 (by simpa using hnd)).2
    have hx : key x ∉ l.map key := (List.nodup_cons.1 (by simpa using hnd)).1
    have habs2 : ∀ y ∈ l, dictGet (key y) (m0 ++ [(key x, val x)]) = none := by
      intro y hy
      rw [dictGet_append_of_none (key y) m0 _ (habs y (List.mem_cons_of_mem _ hy))]
      have hne : ¬ key x = key y := by
        intro hEq
        exact hx (hEq ▸ List.mem_map.2 ⟨y, hy, rfl⟩)
      simp [dictGet, hne]
    rw [foldl_dictSet_append key val l (m0 ++ [(key x, val x)]) habs2 hnd2]
    simp

/-! ### Deanonymization restores a fully substituted text -/

theorem collectPairs_entities :
    ∀ m : List (List Char × AnonymizedEntity),
      collectPairs (m.map (fun q => (q.1, MapEntry.entity q.2)))
        = .ok (m.map (fun q => (q.2.fake_value, q.2.original_value)))
  | [] => rfl
  | q :: m => by
    simp only [List.map_cons, collectPairs, entryPair, collectPairs_entities m]
    rfl

theorem exists_map_of_perm {α β : Type} (f : α → β) :
    ∀ {u s : List β}, u.Perm s → ∀ l : List α, u = l.map f →
      ∃ t : List α, t.Perm l ∧ s = t.map f := by
  intro u s hp
  induction hp with
  | nil =>
    intro l hl
    exact ⟨l, List.Perm.refl l, hl⟩
  | cons x p ih =>
    intro l hl
    cases l with
    | nil => simp at hl
    | cons a l' =>
      rw [List.map_cons] at hl
      injection hl with h1 h2
      rcases ih l' h2 with ⟨t', ht', hs⟩
      exact ⟨a :: t', ht'.cons a, by rw [List.map_cons, ← h1, hs]⟩
  | swap x y l0 =>
    intro l hl
    cases l with
    | nil => simp at hl
    | cons a l1 =>
      cases l1 with
      | nil => simp at hl
      | cons b l2 =>
        simp only [List.map_cons] at hl
        injection hl with h1 hrest
        injection hrest with h2 h3
        refine ⟨b :: a :: l2, List.Perm.swap a b l2, ?_⟩
        rw [List.map_cons, List.map_cons, ← h1, ← h2, h3]
  | trans _ _ ih1 ih2 =>
    intro l hl
    rcases ih1 l hl with ⟨t1, ht1, hs1⟩
    rcases ih2 t1 hs1 with ⟨t2, ht2, hs2⟩
    exact ⟨t2, ht2.trans ht1, hs2⟩

theorem restore_fold (text : List Char) (es : List EntityMatch)
    (fakeOf : EntityMatch → List Char)
    (hchain : chainFrom text.length 0 es)
    (htext : ∀ e ∈ es, e.text = (text.drop e.start).take (e.end_ - e.start))
    (hne : ∀ e ∈ es, fakeOf e ≠ [])
    (hnc : ∀ g : EntityMatch → List Char,
      (∀ e ∈ es, g e = fakeOf e ∨ g e = e.text) →
      ∀ j ∈ es, g j = fakeOf j →
      countOcc (fakeOf j) (renderAnon g text 0 es) = 1) :
    ∀ (qs : List EntityMatch) (g : EntityMatch → List Char),
      qs.Nodup → (∀ e ∈ qs, e ∈ es) →
      (∀ e ∈ es, g e = fakeOf e ∨ g e = e.text) →
      (∀ e ∈ qs, g e = fakeOf e) →
      (∀ e ∈ es, e ∉ qs → g e = e.text) →
      qs.foldl (restoreStep fakeOf) (renderAnon g text 0 es) = text := by
  intro qs
  induction qs with
  | nil =>
    intro g _ _ _ _ hunproc
    rw [List.foldl_nil]
    have horig : ∀ e ∈ es, g e = (text.drop e.start).take (e.end_ - e.start) := by
      intro e he
      rw [hunproc e he (List.not_mem_nil e)]
      exact htext e he
    rw [renderAnon_orig text g es 0 horig hchain, List.drop_zero]
  | cons j qs' ih =>
    intro g hnd hsub hmix hproc hunproc
    have hjes : j ∈ es := hsub j (List.mem_cons_self _ _)
    have hgj : g j = fakeOf j := hproc j (List.mem_cons_self _ _)
    have hjqs' : j ∉ qs' := (List.nodup_cons.1 hnd).1
    have hnd' : qs'.Nodup := (List.nodup_cons.1 hnd).2
    rcases List.append_of_mem hjes with ⟨l1, l2, hsplit⟩
    have hesnd : es.Nodup := chainFrom_nodup hchain
    have hjl1 : j ∉ l1 := by
      intro hj1
      rw [hsplit] at hesnd
      exact (List.disjoint_of_nodup_append hesnd) hj1 (List.mem_cons_self _ _)
    have hjl2 : j ∉ l2 := by
      rw [hsplit] at hesnd
      exact (List.nodup_cons.1 (List.Nodup.of_append_right hesnd)).1
    have hq : endPos 0 l1 = endPos 0 l1 := rfl
    have hB : renderAnon g text 0 es =
        (renderPieces g text 0 l1 ++ (text.drop (endPos 0 l1)).take (j.start - endPos 0 l1))
          ++ fakeOf j ++ renderAnon g text j.end_ l2 := by
      rw [hsplit, renderAnon_split g text l1 (j :: l2) 0, renderAnon, hgj]
      simp [List.append_assoc]
    have hcount : countOcc (fakeOf j) (renderAnon g text 0 es) = 1 := hnc g hmix j hjes hgj
    have hsite : occursAt (fakeOf j) (renderAnon g text 0 es)
        (renderPieces g text 0 l1 ++
          (text.drop (endPos 0 l1)).take (j.start - endPos 0 l1)).length := by
      rw [hB]
      exact occursAt_site _ (fakeOf j) _
    have huniq := countOcc_one_unique (hne j hjes) hcount hsite
    have hinf : fakeOf j <:+: renderAnon g text 0 es := by
      rw [hB]
      exact ⟨_, _, rfl⟩
    rw [List.foldl_cons]
    rw [show restoreStep fakeOf (renderAnon g text 0 es) j
        = pyReplace (renderAnon g text 0 es) (fakeOf j) j.text from if_pos hinf]
    obtain ⟨p, ps, hfj⟩ : ∃ p ps, fakeOf j = p :: ps := by
      cases hf : fakeOf j with
      | nil => exact absurd hf (hne j hjes)
      | cons p ps => exact ⟨p, ps, rfl⟩
    have hrepl : pyReplace (renderAnon g text 0 es) (fakeOf j) j.text =
        (renderPieces g text 0 l1 ++ (text.drop (endPos 0 l1)).take (j.start - endPos 0 l1))
          ++ j.text ++ renderAnon g text j.end_ l2 := by
      rw [hB, hfj]
      show replaceNE p ps j.text _ = _
      refine replaceNE_unique p ps j.text _ _ ?_
      intro i hi
      apply huniq
      rw [hB, hfj]
      exact hi
    have hB' : renderAnon (Function.update g j j.text) text 0 es =
        (renderPieces g text 0 l1 ++ (text.drop (endPos 0 l1)).take (j.start - endPos 0 l1))
          ++ j.text ++ renderAnon g text j.end_ l2 := by
      rw [hsplit, renderAnon_split (Function.update g j j.text) text l1 (j :: l2) 0, renderAnon]
      have hcl1 : ∀ e ∈ l1, Function.update g j j.text e = g e := by
        intro e he
        have hne2 : e ≠ j := by
          intro hEq
          exact hjl1 (hEq ▸ he)
        exact Function.update_noteq hne2 j.text g
      have hcl2 : ∀ e ∈ l2, Function.update g j j.text e = g e := by
        intro e he
        have hne2 : e ≠ j := by
          intro hEq
          exact hjl2 (hEq ▸ he)
        exact Function.update_noteq hne2 j.text g
      rw [renderPieces_congr text l1 0 hcl1, renderAnon_congr text l2 j.end_ hcl2,
        Function.update_same]
      simp [List.append_assoc]
    rw [hrepl, ← hB']
    refine ih (Function.update g j j.text) hnd' (fun e he => hsub e (List.mem_cons_of_mem _ he))
      ?_ ?_ ?_
    · intro e he
      by_cases hEq : e = j
      · subst hEq
        rw [Function.update_same]
        exact Or.inr rfl
      · rw [Function.update_noteq hEq]
        exact hmix e he
    · intro e he
      have hEq : e ≠ j := fun hEq => hjqs' (hEq ▸ he)
      rw [Function.update_noteq hEq]
      exact hproc e (List.mem_cons_of_mem _ he)
    · intro e he hnin
      by_cases hEq : e = j
      · subst hEq
        rw [Function.update_same]
      · rw [Function.update_noteq hEq]
        exact hunproc e he (fun hin => by
          rcases List.mem_cons.1 hin with h | h
          · exact hEq h
          · exact hnin h)

/-! ### LRU cache lemmas -/

theorem lru_get_eq_none {α : Type} (c : ThreadSafeLRUCache α) (k : String)
    (hg : dictGet k c.cache = none) : c.get k = (none, c) := by
  unfold ThreadSafeLRUCache.get
  rw [hg]

theorem lru_get_eq_some {α : Type} (c : ThreadSafeLRUCache α) (k : String) (v : α)
    (hg : dictGet k c.cache = some v) :
    c.get k = (some v, ⟨c.cache, c.maxsize, c.accessOrder.erase k ++ [k]⟩) := by
  unfold ThreadSafeLRUCache.get
  rw [hg]

theorem lru_mem_keys_of_isSome {α : Type} {c : ThreadSafeLRUCache α} {k : String}
    (h : (dictGet k c.cache).isSome) : k ∈ c.cache.map Prod.fst := by
  by_contra hnk
  rw [(dictGet_eq_none_iff k c.cache).2 hnk] at h
  simp at h

theorem perm_promote {l : List String} {order : List String} {k : String}
    (hp : List.Perm l order) (hk : k ∈ l) : List.Perm l (order.erase k ++ [k]) := by
  have hk2 : k ∈ order := hp.mem_iff.1 hk
  exact hp.trans ((List.perm_cons_erase hk2).trans (List.perm_append_singleton k _).symm)

theorem lru_get_inv {α : Type} (c : ThreadSafeLRUCache α) (k : String) (h : LRUInv c) :
    LRUInv (c.get k).2 ∧ (c.get k).2.cache = c.cache ∧ (c.get k).2.maxsize = c.maxsize := by
  cases hg : dictGet k c.cache with
  | none =>
    rw [lru_get_eq_none c k hg]
    exact ⟨h, rfl, rfl⟩
  | some v =>
    rw [lru_get_eq_some c k v hg]
    refine ⟨⟨?_, h.2⟩, rfl, rfl⟩
    exact perm_promote h.1 (lru_mem_keys_of_isSome (by rw [hg]; rfl))

theorem lru_set_ok {α : Type} (c : ThreadSafeLRUCache α) (k : String) (v : α)
    (h : LRUInv c) (hm : 1 ≤ c.maxsize) (hlen : c.cache.length ≤ c.maxsize) :
    ∃ c', c.set k v = .ok c' ∧ LRUInv c' ∧ c'.cache.length ≤ c.maxsize ∧
      c'.maxsize = c.maxsize := by
  unfold ThreadSafeLRUCache.set
  by_cases h1 : (dictGet k c.cache).isSome
  · rw [if_pos h1]
    have hk : k ∈ c.cache.map Prod.fst := lru_mem_keys_of_isSome h1
    refine ⟨_, rfl, ⟨?_, ?_⟩, ?_, rfl⟩
    · show List.Perm ((dictSet k v c.cache).map Prod.fst) (c.accessOrder.erase k ++ [k])
      rw [map_fst_dictSet_of_mem v c.cache hk]
      exact perm_promote h.1 hk
    · show ((dictSet k v c.cache).map Prod.fst).Nodup
      rw [map_fst_dictSet_of_mem v c.cache hk]
      exact h.2
    · show (dictSet k v c.cache).length ≤ c.maxsize
      rw [length_dictSet_of_mem v c.cache hk]
      exact hlen
  · rw [if_neg h1]
    have hnone : dictGet k c.cache = none := by
      cases hg : dictGet k c.cache with
      | none => rfl
      | some w => rw [hg] at h1; simp at h1
    have hknotin : k ∉ c.cache.map Prod.fst := (dictGet_eq_none_iff k c.cache).1 hnone
    by_cases h2 : c.maxsize ≤ c.cache.length
    · rw [if_pos h2]
      have hne : c.accessOrder ≠ [] := by
        intro h0
        have hl := h.1.length_eq
        rw [h0] at hl
        simp only [List.length_map, List.length_nil] at hl
        omega
      cases ho : c.accessOrder with
      | nil => exact absurd ho hne
      | cons oldest restOrder =>
        have hoin : oldest ∈ c.accessOrder := by
          rw [ho]
          exact List.mem_cons_self _ _
        have hokeys : oldest ∈ c.cache.map Prod.fst := h.1.mem_iff.2 hoin
        have hkdel : k ∉ (dictDel oldest c.cache).map Prod.fst := by
          rw [map_fst_dictDel]
          intro hk2
          exact hknotin (List.mem_of_mem_erase hk2)
        have hdelget : dictGet k (dictDel oldest c.cache) = none :=
          (dictGet_eq_none_iff _ _).2 hkdel
        refine ⟨_, rfl, ⟨?_, ?_⟩, ?_, rfl⟩
        · show List.Perm ((dictSet k v (dictDel oldest c.cache)).map Prod.fst)
            (restOrder ++ [k])
          rw [dictSet_of_absent v _ hdelget, List.map_append, map_fst_dictDel]
          refine List.Perm.append_right [k] ?_
          have hperm2 : List.Perm (c.cache.map Prod.fst) (oldest :: restOrder) := ho ▸ h.1
          have hperm3 := hperm2.erase oldest
          rwa [List.erase_cons_head] at hperm3
        · show ((dictSet k v (dictDel oldest c.cache)).map Prod.fst).Nodup
          rw [dictSet_of_absent v _ hdelget, List.map_append, map_fst_dictDel]
          refine List.Nodup.append (h.2.erase oldest) (List.nodup_singleton k) ?_
          intro x hx hx2
          simp only [List.map_cons, List.map_nil, List.mem_singleton] at hx2
          exact hknotin (hx2 ▸ List.mem_of_mem_erase hx)
        · show (dictSet k v (dictDel oldest c.cache)).length ≤ c.maxsize
          rw [dictSet_of_absent v _ hdelget, List.length_append]
          have hld : (dictDel oldest c.cache).length = c.cache.length - 1 := by
            have hh := congrArg List.length (map_fst_dictDel oldest c.cache)
            rw [List.length_map, List.length_erase_of_mem hokeys, List.length_map] at hh
            exact hh
          simp only [hld, List.length_singleton]
          omega
    · rw [if_neg h2]
      refine ⟨_, rfl, ⟨?_, ?_⟩, ?_, rfl⟩
      · show List.Perm ((dictSet k v c.cache).map Prod.fst) (c.accessOrder ++ [k])
        rw [dictSet_of_absent v _ hnone, List.map_append]
        exact List.Perm.append_right [k] h.1
      · show ((dictSet k v c.cache).map Prod.fst).Nodup
        rw [dictSet_of_absent v _ hnone, List.map_append]
        refine List.Nodup.append h.2 (List.nodup_singleton k) ?_
        intro x hx hx2
        simp only [List.map_cons, List.map_nil, List.mem_singleton] at hx2
        exact hknotin (hx2 ▸ hx)
      · show (dictSet k v c.cache).length ≤ c.maxsize
        rw [dictSet_of_absent v _ hnone, List.length_append]
        simp only [List.length_singleton]
        omega

theorem lru_get_after_set {α : Type} (c : ThreadSafeLRUCache α) (k : String) (v : α)
    (c' : ThreadSafeLRUCache α) (hset : c.set k v = .ok c') : (c'.get k).1 = some v := by
  unfold ThreadSafeLRUCache.set at hset
  by_cases h1 : (dictGet k c.cache).isSome
  · rw [if_pos h1] at hset
    injection hset with h'
    rw [← h', lru_get_eq_some _ k v (dictGet_dictSet_self k v c.cache)]
  · rw [if_neg h1] at hset
    by_cases h2 : c.maxsize ≤ c.cache.length
    · rw [if_pos h2] at hset
      cases ho : c.accessOrder with
      | nil => rw [ho] at hset; cases hset
      | cons oldest restOrder =>
        rw [ho] at hset
        injection hset with h'
        rw [← h', lru_get_eq_some _ k v (dictGet_dictSet_self k v _)]
    · rw [if_neg h2] at hset
      injection hset with h'
      rw [← h', lru_get_eq_some _ k v (dictGet_dictSet_self k v _)]

theorem lru_evict {α : Type} (c : ThreadSafeLRUCache α) (k : String) (v : α)
    (h : LRUInv c) (hcap : c.maxsize ≤ c.cache.length) (hnew : dictGet k c.cache = none)
    (oldest : String) (restOrder : List String) (ho : c.accessOrder = oldest :: restOrder) :
    ∃ c', c.set k v = .ok c' ∧ dictGet oldest c'.cache = none ∧ (c'.get oldest).1 = none := by
  have h1 : ¬ (dictGet k c.cache).isSome = true := by rw [hnew]; simp
  have hknotin : k ∉ c.cache.map Prod.fst := (dictGet_eq_none_iff k c.cache).1 hnew
  have hoin : oldest ∈ c.accessOrder := by
    rw [ho]
    exact List.mem_cons_self _ _
  have hokeys : oldest ∈ c.cache.map Prod.fst := h.1.mem_iff.2 hoin
  have honek : oldest ≠ k := by
    intro hEq
    exact hknotin (hEq ▸ hokeys)
  have hnone2 : dictGet oldest (dictSet k v (dictDel oldest c.cache)) = none := by
    rw [dictGet_dictSet_ne v honek, dictGet_dictDel_self oldest c.cache h.2]
  refine ⟨⟨dictSet k v (dictDel oldest c.cache), c.maxsize, restOrder ++ [k]⟩, ?_, hnone2, ?_⟩
  · unfold ThreadSafeLRUCache.set
    rw [if_neg h1, if_pos hcap, ho]
  · rw [lru_get_eq_none _ oldest hnone2]

/-! ### Digest length lemmas -/

theorem toBytesBE_length : ∀ n val : Nat, (toBytesBE n val).length = n
  | 0, _ => rfl
  | m + 1, val => by
    rw [toBytesBE, List.length_append, toBytesBE_length m]
    rfl

theorem sha256_length (msg : List Nat) : (sha256 msg).length = 32 := by
  unfold sha256
  simp only [List.length_append, toBytesBE_length]

theorem foldr_two_cons_length (f g : Nat → Char) :
    ∀ l : List Nat, (l.foldr (fun b acc => f b :: g b :: acc) []).length = 2 * l.length
  | [] => rfl
  | b :: l => by
    rw [List.foldr_cons, List.length_cons, List.length_cons,
      foldr_two_cons_length f g l, List.length_cons]
    omega

theorem sha256hexdigest_length (msg : List Nat) : (sha256hexdigest msg).length = 64 := by
  unfold sha256hexdigest
  rw [foldr_two_cons_length (fun b => hexChar (b / 16)) (fun b => hexChar (b % 16)) (sha256 msg),
    sha256_length]

/-! ### Claim theorems -/

/-- C2. Merge overlap resolution: for two overlapping candidates (given in
ascending-`start`, i.e. sorted, order), `_merge_overlapping_entities`
returns exactly the higher-confidence one, with its own original
start/end offsets (the returned list contains `e2` or `e1` itself, never
a blended span); on a confidence tie the first-seen one (`e1`, earlier in
the sorted-by-start order) is kept. -/
theorem merge_overlap_pair (e1 e2 : EntityMatch) (h1 : e1.start ≤ e2.start)
    (h2 : e2.start < e1.end_) :
    mergeOverlappingEntities [e1, e2] = if e1.confidence < e2.confidence then [e2] else [e1] := by
  unfold mergeOverlappingEntities
  rw [insertionSort_startLE_pair e1 e2 h1]
  show mergeKeep e1 [e2] = _
  rw [mergeKeep, if_pos h2]
  by_cases hc : e2.confidence > e1.confidence
  · rw [if_pos hc, if_pos hc, mergeKeep]
  · rw [if_neg hc, if_neg hc, mergeKeep]

/-- C2 witness: the spec's own concrete overlap scenario,
`{LOC,0,10,"New York C",0.6}` vs `{LOC,0,13,"New York City",0.9}`. -/
theorem merge_overlap_pair_witness :
    mergeOverlappingEntities
        [⟨"LOC".data, 0, 10, "New York C".data, 6 / 10⟩,
         ⟨"LOC".data, 0, 13, "New York City".data, 9 / 10⟩]
      = if ((6 : Rat) / 10 : Rat) < 9 / 10
        then [⟨"LOC".data, 0, 13, "New York City".data, 9 / 10⟩]
        else [⟨"LOC".data, 0, 10, "New York C".data, 6 / 10⟩] :=
  merge_overlap_pair _ _ (by decide) (by decide)

/-- C3. Merge output invariant: for every input, the output of
`_merge_overlapping_entities` is sorted ascending by `start` and pairwise
non-overlapping (each consecutive later element starts at or after the
earlier one's end); empty input yields empty output and a singleton is
returned unchanged. -/
theorem merge_output_invariant :
    mergeOverlappingEntities [] = [] ∧
    (∀ e : EntityMatch, mergeOverlappingEntities [e] = [e]) ∧
    (∀ l : List EntityMatch,
      List.Chain' (fun a b => a.start ≤ b.start) (mergeOverlappingEntities l) ∧
      List.Chain' (fun a b => a.end_ ≤ b.start) (mergeOverlappingEntities l)) := by
  refine ⟨rfl, fun e => rfl, ?_⟩
  intro l
  unfold mergeOverlappingEntities
  cases hs : List.insertionSort startLE l with
  | nil => exact ⟨List.chain'_nil, List.chain'_nil⟩
  | cons e rest =>
    have hp : (e :: rest).Pairwise startLE := hs ▸ List.sorted_insertionSort startLE l
    have hrest := (List.pairwise_cons.1 hp).2
    have hcur := (List.pairwise_cons.1 hp).1
    constructor
    · exact mergeKeep_chain' _ (fun a b _ hb => hb) rest e hrest hcur
    · exact mergeKeep_chain' _ (fun a b ha _ => ha) rest e hrest hcur

/-- C4. Anonymization preserves non-substituted text: the
`_anonymize_entities` traversal order is descending by `start`
(`insertionSort startGE es = es.reverse` for an ascending non-overlapping
input), and the anonymized buffer equals `renderAnon`: each gap of the
original text verbatim and in order, with each `[start, end)` span
replaced by that entity's fake value. -/
theorem anonymize_preserves_text (text : List Char) (es : List EntityMatch)
    (fakeOf : EntityMatch → List Char) (h : chainFrom text.length 0 es) :
    List.insertionSort startGE es = es.reverse ∧
    (anonymizeEntities text es fakeOf).1 = renderAnon fakeOf text 0 es := by
  have hrev : List.insertionSort startGE es = es.reverse :=
    insertionSort_startGE_of_lt_sorted es (chainFrom_pairwise_lt h)
  refine ⟨hrev, ?_⟩
  rw [anonymizeEntities_eq, hrev]
  show es.reverse.foldl (spliceStep fakeOf) text = _
  rw [List.foldl_reverse]
  exact foldr_splice_eq_render fakeOf text es h

/-- C4 witness: the spec's concrete scenario `"Alice emailed Bob"`. -/
theorem anonymize_preserves_text_witness :
    List.insertionSort startGE
        [⟨"PERSON".data, 0, 5, "Alice".data, 9 / 10⟩,
         ⟨"PERSON".data, 14, 17, "Bob".data, 8 / 10⟩]
      = [⟨"PERSON".data, 0, 5, "Alice".data, 9 / 10⟩,
         ⟨"PERSON".data, 14, 17, "Bob".data, 8 / 10⟩].reverse ∧
    (anonymizeEntities "Alice emailed Bob".data
        [⟨"PERSON".data, 0, 5, "Alice".data, 9 / 10⟩,
         ⟨"PERSON".data, 14, 17, "Bob".data, 8 / 10⟩]
        (fun e => if e.start = 0 then "Person_1".data else "Person_2".data)).1
      = renderAnon (fun e => if e.start = 0 then "Person_1".data else "Person_2".data)
          "Alice emailed Bob".data 0
          [⟨"PERSON".data, 0, 5, "Alice".data, 9 / 10⟩,
           ⟨"PERSON".data, 14, 17, "Bob".data, 8 / 10⟩] :=
  anonymize_preserves_text _ _ _ (by decide)

/-- C5. Entity-id determinism and shape: `generate_entity_id` is a pure
function of `(entity_type, original_value)` — equal argument pairs give
equal identifiers — and the identifier is
`entity_type ++ "_" ++ h` where `h` is the first 8 hex characters of the
SHA-256 digest of `"{entity_type}:{original_value}"`. -/
theorem generate_entity_id_spec :
    (∀ t v t' v' : List Char, t = t' → v = v' → generateEntityId t v = generateEntityId t' v') ∧
    (∀ t v : List Char, ∃ h : List Char, h.length = 8 ∧
      h = (sha256hexdigest (utf8Encode (t ++ [':'] ++ v))).take 8 ∧
      generateEntityId t v = t ++ ['_'] ++ h) := by
  constructor
  · intro t v t' v' ht hv
    rw [ht, hv]
  · intro t v
    refine ⟨(sha256hexdigest (utf8Encode (t ++ [':'] ++ v))).take 8, ?_, rfl, rfl⟩
    rw [List.length_take, sha256hexdigest_length]
    omega

/-- C5 witness: determinism applied at a concrete pair. -/
theorem generate_entity_id_spec_witness :
    generateEntityId "PERSON".data "Alice".data = generateEntityId "PERSON".data "Alice".data :=
  generate_entity_id_spec.1 "PERSON".data "Alice".data "PERSON".data "Alice".data rfl rfl

/-- C6. EntityMatch validation is exact and fail-fast: the validated
constructor succeeds iff `0 ≤ start`, `start < end`, `0 ≤ confidence ≤ 1`
(first branch of `__post_init__` checks the position, second the
confidence), and any value it produces satisfies the invariants. -/
theorem entity_match_validation (entityType : List Char) (start end_ : Int)
    (text : List Char) (confidence : Rat) :
    ((∃ em, mkEntityMatch entityType start end_ text confidence = .ok em) ↔
      (0 ≤ start ∧ start < end_ ∧ 0 ≤ confidence ∧ confidence ≤ 1)) ∧
    (∀ em, mkEntityMatch entityType start end_ text confidence = .ok em →
      em = ⟨entityType, start.toNat, end_.toNat, text, confidence⟩ ∧
      em.start < em.end_ ∧ 0 ≤ em.confidence ∧ em.confidence ≤ 1) := by
  unfold mkEntityMatch
  by_cases hpos : start < 0 ∨ end_ ≤ start
  · rw [if_pos hpos]
    refine ⟨⟨?_, ?_⟩, ?_⟩
    · rintro ⟨em, hem⟩
      cases hem
    · rintro ⟨ha, hb, _⟩
      exact absurd hpos (by omega)
    · intro em hem
      cases hem
  · rw [if_neg hpos]
    by_cases hconf : ¬(0 ≤ confidence ∧ confidence ≤ 1)
    · rw [if_pos hconf]
      refine ⟨⟨?_, ?_⟩, ?_⟩
      · rintro ⟨em, hem⟩
        cases hem
      · rintro ⟨_, _, hc1, hc2⟩
        exact absurd ⟨hc1, hc2⟩ hconf
      · intro em hem
        cases hem
    · rw [if_neg hconf]
      rw [not_not] at hconf
      refine ⟨⟨?_, ?_⟩, ?_⟩
      · intro _
        exact ⟨by omega, by omega, hconf.1, hconf.2⟩
      · intro _
        exact ⟨_, rfl⟩
      · intro em hem
        injection hem with h'
        refine ⟨h'.symm, ?_, ?_, ?_⟩
        · rw [← h']
          show start.toNat < end_.toNat
          omega
        · rw [← h']
          exact hconf.1
        · rw [← h']
          exact hconf.2

/-- C6 witness: a valid construction succeeds, applied at a concrete
input. -/
theorem entity_match_validation_witness :
    ∃ em, mkEntityMatch "PERSON".data 0 2 "ab".data 1 = .ok em :=
  (entity_match_validation "PERSON".data 0 2 "ab".data 1).1.2
    ⟨by decide, by decide, by decide, by decide⟩

/-- C7. Filter characterization and idempotence: `_filter_entities` is an
order-preserving subsequence (a `Sublist`), membership is exactly
`confidence ≥ threshold` and prior membership, and re-filtering with the
same threshold is the identity on the result. (It is a total function —
no error case exists.) -/
theorem filter_entities_characterization (threshold : Rat) (l : List EntityMatch)
    (ht : 0 ≤ threshold ∧ threshold ≤ 1) :
    List.Sublist (filterEntities threshold l) l ∧
    (∀ e, e ∈ filterEntities threshold l ↔ e ∈ l ∧ threshold ≤ e.confidence) ∧
    filterEntities threshold (filterEntities threshold l) = filterEntities threshold l := by
  refine ⟨List.filter_sublist l, ?_, ?_⟩
  · intro e
    unfold filterEntities
    rw [List.mem_filter]
    simp
  · unfold filterEntities
    rw [List.filter_filter]
    simp

/-- C7 witness. -/
theorem filter_entities_characterization_witness :
    List.Sublist (filterEntities 1 [⟨"P".data, 0, 1, "a".data, 0⟩])
      [⟨"P".data, 0, 1, "a".data, 0⟩] ∧
    (∀ e, e ∈ filterEntities 1 [⟨"P".data, 0, 1, "a".data, 0⟩] ↔
      e ∈ [⟨"P".data, 0, 1, "a".data, (0 : Rat)⟩] ∧ 1 ≤ e.confidence) ∧
    filterEntities 1 (filterEntities 1 [⟨"P".data, 0, 1, "a".data, 0⟩])
      = filterEntities 1 [⟨"P".data, 0, 1, "a".data, 0⟩] :=
  filter_entities_characterization 1 _ ⟨by decide, by decide⟩

/-- C8. Single failure shape: whatever outcome the stages of the
detect→filter→merge→anonymize pipeline produce, `process_text_async`
either succeeds or fails with exactly one error kind,
`ProcessingError`, carrying the stage's original error as its cause;
likewise for `deanonymize_text`. -/
theorem pipeline_single_failure_shape :
    (∀ (detectRes : Except PyExc (List EntityMatch)) (threshold : Rat)
        (anonStage : List EntityMatch →
          Except PyExc (List Char × List (List Char × AnonymizedEntity))),
      (∃ r, processTextAsync detectRes threshold anonStage = .ok r) ∨
      (∃ e, pipelineBody detectRes threshold anonStage = .error e ∧
        processTextAsync detectRes threshold anonStage =
          .error (.processingError ("Text processing failed: " ++ excMessage e) (some e)))) ∧
    (∀ (a : List Char) (m : List (List Char × MapEntry)),
      (∃ r, deanonymizeText a m = .ok r) ∨
      (∃ e, deanonBody a m = .error e ∧
        deanonymizeText a m =
          .error (.processingError ("Deanonymization failed: " ++ excMessage e) (some e)))) := by
  constructor
  · intro detectRes threshold anonStage
    cases hb : pipelineBody detectRes threshold anonStage with
    | ok r =>
      refine Or.inl ⟨r, ?_⟩
      unfold processTextAsync
      rw [hb]
    | error e =>
      refine Or.inr ⟨e, rfl, ?_⟩
      unfold processTextAsync
      rw [hb]
  · intro a m
    cases hb : deanonBody a m with
    | ok r =>
      refine Or.inl ⟨r, ?_⟩
      unfold deanonymizeText
      rw [hb]
    | error e =>
      refine Or.inr ⟨e, rfl, ?_⟩
      unfold deanonymizeText
      rw [hb]

/-- C9. LRU cache behavior: a fresh cache misses on every key; after a
successful `set(k, v)`, `get(k)` returns `v`; and at capacity, setting a
fresh key evicts exactly the front of the access-order list — the least
recently accessed key, as maintained by the promotions that `get` hits
and `set` updates perform — which subsequently misses. -/
theorem lru_cache_behavior (α : Type) :
    (∀ (n : Nat) (k : String), ((ThreadSafeLRUCache.new α n).get k).1 = none) ∧
    (∀ (c : ThreadSafeLRUCache α) (k : String) (v : α) (c' : ThreadSafeLRUCache α),
      c.set k v = .ok c' → (c'.get k).1 = some v) ∧
    (∀ (c : ThreadSafeLRUCache α) (k : String) (v : α), LRUInv c →
      c.maxsize ≤ c.cache.length → dictGet k c.cache = none →
      ∀ (oldest : String) (restOrder : List String), c.accessOrder = oldest :: restOrder →
        ∃ c', c.set k v = .ok c' ∧ dictGet oldest c'.cache = none ∧
          (c'.get oldest).1 = none) := by
  refine ⟨?_, ?_, ?_⟩
  · intro n k
    unfold ThreadSafeLRUCache.new
    rw [lru_get_eq_none ⟨[], n, []⟩ k rfl]
  · intro c k v c' hset
    exact lru_get_after_set c k v c' hset
  · intro c k v h hcap hnew oldest restOrder ho
    exact lru_evict c k v h hcap hnew oldest restOrder ho

/-- C9 witness: capacity 2; after `set a`, `set b`, `get a` (promoting
`a`), the state is `{a, b}` with access order `[b, a]`; setting the fresh
key `c` evicts `b`, which then misses. -/
theorem lru_cache_behavior_witness :
    ((ThreadSafeLRUCache.new Nat 2).get "x").1 = none ∧
    (∃ c', (⟨[("a", 1), ("b", 2)], 2, ["b", "a"]⟩ : ThreadSafeLRUCache Nat).set "c" 3 = .ok c' ∧
      dictGet "b" c'.cache = none ∧ (c'.get "b").1 = none) := by
  constructor
  · exact (lru_cache_behavior Nat).1 2 "x"
  · exact (lru_cache_behavior Nat).2.2 ⟨[("a", 1), ("b", 2)], 2, ["b", "a"]⟩ "c" 3
      ⟨by decide, by decide⟩ (by decide) (by decide) "b" ["a"] rfl

/-- C10. Implicit LRU capacity precondition: construction accepts
`maxsize = 0`, but `set` of a new key on the empty cache then reaches the
eviction branch and raises `IndexError` from `pop(0)` on the empty
access-order list; for any reachable state with `maxsize ≥ 1` that branch
is unreachable (`set` always succeeds) and `get`/`set` keep the entry
count at most `maxsize`. -/
theorem lru_capacity_precondition (α : Type) :
    (∀ (k : String) (v : α),
      (ThreadSafeLRUCache.new α 0).set k v = .error (.indexError "pop from empty list")) ∧
    (∀ (c : ThreadSafeLRUCache α) (k : String) (v : α), LRUInv c → 1 ≤ c.maxsize →
      c.cache.length ≤ c.maxsize →
      ∃ c', c.set k v = .ok c' ∧ LRUInv c' ∧ c'.cache.length ≤ c.maxsize ∧
        c'.maxsize = c.maxsize) ∧
    (∀ (c : ThreadSafeLRUCache α) (k : String), LRUInv c →
      LRUInv (c.get k).2 ∧ (c.get k).2.cache = c.cache ∧ (c.get k).2.maxsize = c.maxsize) := by
  refine ⟨?_, ?_, ?_⟩
  · intro k v
    rfl
  · intro c k v h hm hlen
    exact lru_set_ok c k v h hm hlen
  · intro c k h
    exact lru_get_inv c k h

/-- C10 witness. -/
theorem lru_capacity_precondition_witness :
    (ThreadSafeLRUCache.new Nat 0).set "a" 1 = .error (.indexError "pop from empty list") ∧
    (∃ c', (⟨[("a", 1)], 2, ["a"]⟩ : ThreadSafeLRUCache Nat).set "b" 2 = .ok c' ∧
      LRUInv c' ∧ c'.cache.length ≤ 2 ∧ c'.maxsize = 2) ∧
    (LRUInv ((⟨[("a", 1)], 2, ["a"]⟩ : ThreadSafeLRUCache Nat).get "a").2 ∧
      ((⟨[("a", 1)], 2, ["a"]⟩ : ThreadSafeLRUCache Nat).get "a").2.cache = [("a", 1)] ∧
      ((⟨[("a", 1)], 2, ["a"]⟩ : ThreadSafeLRUCache Nat).get "a").2.maxsize = 2) := by
  refine ⟨?_, ?_, ?_⟩
  · exact (lru_capacity_precondition Nat).1 "a" 1
  · exact (lru_capacity_precondition Nat).2.1 ⟨[("a", 1)], 2, ["a"]⟩ "b" 2
      ⟨by decide, by decide⟩ (by decide) (by decide)
  · exact (lru_capacity_precondition Nat).2.2 ⟨[("a", 1)], 2, ["a"]⟩ "a" ⟨by decide, by decide⟩


/-! ### C1: the anonymize→deanonymize round trip -/

theorem foldl_dictSet_pair_collide {κ α γ : Type} [DecidableEq κ] (key : γ → κ) (val : γ → α)
    (x y : γ) (hk : key x = key y) :
    [x, y].foldl (fun m e => dictSet (key e) (val e) m) [] = [(key y, val y)] := by
  rw [List.foldl_cons, List.foldl_cons, List.foldl_nil]
  show dictSet (key y) (val y) (dictSet (key x) (val x) []) = _
  rw [show dictSet (key x) (val x) ([] : List (κ × α)) = [(key x, val x)] from rfl]
  rw [dictSet, if_pos hk]

/-- C1 counterexample: the round trip as claimed fails on `"ab ab"` with
the two non-overlapping entities `cexE1`, `cexE2` and the fake values
`"X"`, `"Y"`, each of which occurs exactly once in the anonymized text
`"X Y"` (fakes are pairwise distinct and collide with nothing): both
entities derive the same entity id, the second dict write overwrites the
first map entry, and deanonymization returns `"ab Y" ≠ "ab ab"`. -/
theorem roundtrip_counterexample :
    chainFrom "ab ab".data.length 0 [cexE1, cexE2] ∧
    (anonymizeEntities "ab ab".data [cexE1, cexE2] cexFake).1 = "X Y".data ∧
    countOcc "X".data "X Y".data = 1 ∧ countOcc "Y".data "X Y".data = 1 ∧
    deanonymizeText (anonymizeEntities "ab ab".data [cexE1, cexE2] cexFake).1
      ((anonymizeEntities "ab ab".data [cexE1, cexE2] cexFake).2.map
        (fun q => (q.1, MapEntry.entity q.2)))
      = .ok ⟨"ab Y".data, [], 0⟩ ∧
    "ab Y".data ≠ "ab ab".data := by
  have htexteq : (anonymizeEntities "ab ab".data [cexE1, cexE2] cexFake).1 = "X Y".data := by
    decide
  have hmap : (anonymizeEntities "ab ab".data [cexE1, cexE2] cexFake).2
      = [(generateEntityId "PERSON".data "ab".data,
          ⟨generateEntityId "PERSON".data "ab".data, "ab".data, "PERSON".data,
           "X".data, 1, none⟩)] := by
    have h2 := congrArg Prod.snd (anonymizeEntities_eq "ab ab".data [cexE1, cexE2] cexFake)
    rw [h2]
    rw [show List.insertionSort startGE [cexE1, cexE2] = [cexE2, cexE1] from rfl]
    have hfold := foldl_dictSet_pair_collide (fun e => (anonEntry cexFake e).1)
      (fun e => (anonEntry cexFake e).2) cexE2 cexE1 rfl
    rw [hfold]
    rfl
  refine ⟨by decide, htexteq, by decide, by decide, ?_, by decide⟩
  rw [htexteq, hmap]
  have hbody : deanonBody "X Y".data
      [(generateEntityId "PERSON".data "ab".data,
        MapEntry.entity ⟨generateEntityId "PERSON".data "ab".data, "ab".data, "PERSON".data,
          "X".data, 1, none⟩)] = .ok ⟨"ab Y".data, [], 0⟩ := by
    rfl
  show deanonymizeText "X Y".data
      [(generateEntityId "PERSON".data "ab".data,
        MapEntry.entity ⟨generateEntityId "PERSON".data "ab".data, "ab".data, "PERSON".data,
          "X".data, 1, none⟩)] = .ok ⟨"ab Y".data, [], 0⟩
  unfold deanonymizeText
  rw [hbody]

/-- C1 (amended). Round trip: for any text and any ascending sequence of
valid, in-bounds, non-overlapping entities carrying their exact source
substrings, with non-empty fake values, **pairwise distinct derived
entity ids** (the amendment the counterexample forces), and fake values
that do not textually collide with anything in any partially restored
buffer except their own substitution site (each still-fake value occurs
exactly once), deanonymizing the anonymized output with the produced
entity map restores exactly the original text. -/
theorem anonymize_deanonymize_roundtrip (text : List Char) (es : List EntityMatch)
    (fakeOf : EntityMatch → List Char)
    (hchain : chainFrom text.length 0 es)
    (htext : ∀ e ∈ es, e.text = (text.drop e.start).take (e.end_ - e.start))
    (hne : ∀ e ∈ es, fakeOf e ≠ [])
    (hids : (es.map (fun e => generateEntityId e.entity_type e.text)).Nodup)
    (hnc : ∀ g : EntityMatch → List Char,
      (∀ e ∈ es, g e = fakeOf e ∨ g e = e.text) →
      ∀ j ∈ es, g j = fakeOf j →
      countOcc (fakeOf j) (renderAnon g text 0 es) = 1) :
    deanonymizeText (anonymizeEntities text es fakeOf).1
      ((anonymizeEntities text es fakeOf).2.map (fun q => (q.1, MapEntry.entity q.2)))
      = .ok ⟨text, [], 0⟩ := by
  have hrev : List.insertionSort startGE es = es.reverse :=
    insertionSort_startGE_of_lt_sorted es (chainFrom_pairwise_lt hchain)
  have hfst : (anonymizeEntities text es fakeOf).1 = renderAnon fakeOf text 0 es := by
    rw [anonymizeEntities_eq, hrev]
    show es.reverse.foldl (spliceStep fakeOf) text = _
    rw [List.foldl_reverse]
    exact foldr_splice_eq_render fakeOf text es hchain
  have hids' : (es.reverse.map (fun e => (anonEntry fakeOf e).1)).Nodup := by
    have hfun : (fun e : EntityMatch => (anonEntry fakeOf e).1)
        = fun e => generateEntityId e.entity_type e.text := rfl
    rw [hfun, List.map_reverse]
    exact List.nodup_reverse.2 hids
  have hsnd : (anonymizeEntities text es fakeOf).2 = es.reverse.map (anonEntry fakeOf) := by
    rw [anonymizeEntities_eq, hrev]
    show es.reverse.foldl
      (fun m e => dictSet (anonEntry fakeOf e).1 (anonEntry fakeOf e).2 m) [] = _
    rw [foldl_dictSet_append (fun e => (anonEntry fakeOf e).1)
      (fun e => (anonEntry fakeOf e).2) es.reverse [] (fun x _ => rfl) hids']
    rfl
  have hpairs : collectPairs ((es.reverse.map (anonEntry fakeOf)).map
      (fun q => (q.1, MapEntry.entity q.2)))
      = .ok (es.reverse.map (fun e => (fakeOf e, e.text))) := by
    rw [collectPairs_entities (es.reverse.map (anonEntry fakeOf)), List.map_map]
    rfl
  obtain ⟨qs, hqs_perm, hqs_eq⟩ := exists_map_of_perm (fun e => (fakeOf e, e.text))
    (List.perm_insertionSort fakeLenGE (es.reverse.map (fun e => (fakeOf e, e.text)))).symm
    es.reverse rfl
  have hes_nodup : es.Nodup := chainFrom_nodup hchain
  have hqs_nodup : qs.Nodup := hqs_perm.nodup_iff.2 (List.nodup_reverse.2 hes_nodup)
  have hqs_sub : ∀ e ∈ qs, e ∈ es := fun e he => List.mem_reverse.1 (hqs_perm.mem_iff.1 he)
  have hfold := restore_fold text es fakeOf hchain htext hne hnc qs fakeOf hqs_nodup hqs_sub
    (fun e _ => Or.inl rfl) (fun e _ => rfl)
    (fun e he hnin => absurd (hqs_perm.mem_iff.2 (List.mem_reverse.2 he)) hnin)
  rw [hfst, hsnd]
  unfold deanonymizeText deanonBody
  rw [hpairs]
  show Except.ok (⟨(List.insertionSort fakeLenGE
      (es.reverse.map (fun e => (fakeOf e, e.text)))).foldl
      (fun buf pr => if pr.1 <:+: buf then pyReplace buf pr.1 pr.2 else buf)
      (renderAnon fakeOf text 0 es), [], 0⟩ : PResult) = .ok ⟨text, [], 0⟩
  rw [hqs_eq, List.foldl_map]
  show Except.ok (⟨qs.foldl (restoreStep fakeOf) (renderAnon fakeOf text 0 es), [], 0⟩ : PResult)
    = .ok ⟨text, [], 0⟩
  rw [hfold]

/-- C1 witness: a concrete round trip, `"Hello Alice!"` with one PERSON
entity and fake value `"Bob"`. -/
theorem anonymize_deanonymize_roundtrip_witness :
    deanonymizeText
      (anonymizeEntities "Hello Alice!".data [⟨"PERSON".data, 6, 11, "Alice".data, 1⟩]
        (fun _ => "Bob".data)).1
      ((anonymizeEntities "Hello Alice!".data [⟨"PERSON".data, 6, 11, "Alice".data, 1⟩]
        (fun _ => "Bob".data)).2.map (fun q => (q.1, MapEntry.entity q.2)))
      = .ok ⟨"Hello Alice!".data, [], 0⟩ := by
  refine anonymize_deanonymize_roundtrip "Hello Alice!".data
    [⟨"PERSON".data, 6, 11, "Alice".data, 1⟩] (fun _ => "Bob".data)
    (by decide) ?_ ?_ ?_ ?_
  · intro e he
    rw [List.mem_singleton] at he
    subst he
    decide
  · intro e he
    show "Bob".data ≠ []
    decide
  · exact List.nodup_singleton _
  · intro g hg j hj hgj
    rw [List.mem_singleton] at hj
    subst hj
    rw [show renderAnon g "Hello Alice!".data 0 [⟨"PERSON".data, 6, 11, "Alice".data, 1⟩]
        = ("Hello Alice!".data.drop 0).take 6 ++ g ⟨"PERSON".data, 6, 11, "Alice".data, 1⟩ ++
          "Hello Alice!".data.drop 11 from rfl]
    rw [hgj]
    decide
